import Mathlib

/- Shallow embedding of the MIDI-Track-Splitter core (src/midisplitter2.cpp).

   Bytes are modelled as natural numbers; in the C++ source they are uint8_t
   values, hence always below 256.  A std::istream over the input file is
   modelled as a record of the underlying byte list, the read position and a
   single error flag standing for failbit together with eofbit: in every
   reachable state of this program the two bits are set and cleared together
   (istream::read sets both on a short read, and the program always calls
   clear before or right after any seek that follows a failure).

   Per the semantics of std::basic_filebuf, a relative seek to a position
   beyond the current end of the file is valid and sets no error state
   (the underlying lseek succeeds); this is reflected in seekCur below.

   OS-facing glue is abstracted: the existence test fs::exists is a
   parameter (a predicate on paths, extended as files are created), the
   stem of the input path and the output directory are passed in as
   strings, and creating or writing an output file always succeeds (the
   corresponding throw branches of the source are kept but never taken).
   Allocation of the name-search buffer may fail with bad_alloc in the
   source; the boolean allocOk parameter selects that branch. -/

namespace MIDISplitter

structure ByteStream where
  data : List Nat
  pos : Nat
  fail : Bool
deriving DecidableEq

/-- istream::read n: extracts min n avail bytes at the current position;
a short read sets the error flag (failbit and eofbit). On a stream whose
error flag is set the sentry fails and nothing is extracted. -/
def ByteStream.read (s : ByteStream) (n : Nat) : List Nat × ByteStream :=
  if s.fail then ([], s)
  else
    let avail := s.data.length - s.pos
    let g := min n avail
    ((s.data.drop s.pos).take g, ⟨s.data, s.pos + g, decide (g < n)⟩)

/-- istream::tellg: returns -1 (here: none) when the error flag is set. -/
def ByteStream.tellg (s : ByteStream) : Option Nat :=
  if s.fail then none else some s.pos

/-- istream::seekg to an absolute position (no-op when the sentry fails). -/
def ByteStream.seekAbs (s : ByteStream) (p : Nat) : ByteStream :=
  if s.fail then s else ⟨s.data, p, s.fail⟩

/-- istream::seekg(n, ios::cur): relative seek; seeking beyond the end of
a file stream is valid and sets no error state. -/
def ByteStream.seekCur (s : ByteStream) (n : Nat) : ByteStream :=
  if s.fail then s else ⟨s.data, s.pos + n, s.fail⟩

/-- istream::clear. -/
def ByteStream.clearErr (s : ByteStream) : ByteStream :=
  ⟨s.data, s.pos, false⟩

/-- The modulus of size_t arithmetic on the 64-bit targets this program
builds for: every sum the source computes in size_t wraps modulo 2^64. -/
def sizeTMod : Nat := 2 ^ 64

/-- bytesToUInt32 (src line 29): big-endian decode of four bytes, 0 when
the guard offset + 4 > bytes.size() holds.  The offset parameter and the
guard sum are size_t values, so the sum wraps modulo 2^64 — for offsets
at 2^64 - 4 and above the guard is skipped on every buffer — and each
index expression offset + k likewise wraps.  A vector access at or past
bytes.size() is out of bounds, undefined behavior with no defined value;
the model supplies the getD default there, about which nothing is
claimed, and the access event itself is captured by
bytesToUInt32InBounds below. -/
def bytesToUInt32 (bytes : List Nat) (offset : Nat) : Nat :=
  if (offset + 4) % sizeTMod > bytes.length then 0
  else (bytes.getD (offset % sizeTMod) 0) <<< 24 |||
       (bytes.getD ((offset + 1) % sizeTMod) 0) <<< 16 |||
       (bytes.getD ((offset + 2) % sizeTMod) 0) <<< 8 |||
       (bytes.getD ((offset + 3) % sizeTMod) 0)

/-- bytesToUInt16 (src line 38): big-endian decode of two bytes, with the
same size_t wrap of the guard sum offset + 2 and of the index
expressions as in bytesToUInt32. -/
def bytesToUInt16 (bytes : List Nat) (offset : Nat) : Nat :=
  if (offset + 2) % sizeTMod > bytes.length then 0
  else (bytes.getD (offset % sizeTMod) 0) <<< 8 |||
       (bytes.getD ((offset + 1) % sizeTMod) 0)

/-- Whether every vector access bytesToUInt32 performs stays inside the
buffer: true when the guard is taken (no access at all) or when all four
size_t indices are below bytes.size(); false records that the source
reads the vector out of bounds. -/
def bytesToUInt32InBounds (bytes : List Nat) (offset : Nat) : Bool :=
  decide ((offset + 4) % sizeTMod > bytes.length) ||
    (decide (offset % sizeTMod < bytes.length) &&
     decide ((offset + 1) % sizeTMod < bytes.length) &&
     decide ((offset + 2) % sizeTMod < bytes.length) &&
     decide ((offset + 3) % sizeTMod < bytes.length))

/-- Whether every vector access bytesToUInt16 performs stays inside the
buffer. -/
def bytesToUInt16InBounds (bytes : List Nat) (offset : Nat) : Bool :=
  decide ((offset + 2) % sizeTMod > bytes.length) ||
    (decide (offset % sizeTMod < bytes.length) &&
     decide ((offset + 1) % sizeTMod < bytes.length))

/-- uint32ToBytes (src line 45): big-endian encode of a 32-bit value. -/
def uint32ToBytes (value : Nat) : List Nat :=
  [(value >>> 24) &&& 0xFF, (value >>> 16) &&& 0xFF,
   (value >>> 8) &&& 0xFF, value &&& 0xFF]

/-- uint16ToBytes (src line 55): big-endian encode of a 16-bit value. -/
def uint16ToBytes (value : Nat) : List Nat :=
  [(value >>> 8) &&& 0xFF, value &&& 0xFF]

/-- The inner comparison loop of simpleSearch (src lines 69-74): compares
the pattern bytes against the text starting at position i, stopping at the
first mismatch. -/
def matchesFrom (text : List Nat) (i : Nat) : List Nat → Bool
  | [] => true
  | b :: rest => (text.getD i 0 == b) && matchesFrom text (i + 1) rest

/-- The outer scan loop of simpleSearch (src lines 67-79).  After a match
at position i the source does i += pattern.size() - 1 followed by the loop
increment, so the scan resumes at i + pattern.size().  The fuel argument
only bounds the iteration count; text.length + 1 iterations always
suffice, since i strictly increases while the loop guard holds. -/
def searchLoopF (text pattern : List Nat) : Nat → Nat → List Nat
  | _, 0 => []
  | i, fuel + 1 =>
    if i ≤ text.length - pattern.length then
      if matchesFrom text i pattern then
        i :: searchLoopF text pattern (i + pattern.length) fuel
      else
        searchLoopF text pattern (i + 1) fuel
    else []

/-- simpleSearch (src line 63): all non-overlapping occurrences of pattern
in text, scanning left to right. -/
def simpleSearch (text pattern : List Nat) : List Nat :=
  if pattern.isEmpty || text.length < pattern.length then []
  else searchLoopF text pattern 0 (text.length + 1)

/-- The per-match body of the name loop in extractTrackName (src lines
114-127): the byte after the two marker bytes is the name length; the name
is accepted if it fits in the buffer and is non-empty. -/
def matchName (buf : List Nat) (matchPos : Nat) : Option String :=
  let nameIndex := matchPos + 2
  if nameIndex + 1 < buf.length then
    let nameLength := buf.getD nameIndex 0
    if nameIndex + 1 + nameLength ≤ buf.length then
      let trackName :=
        String.mk (((buf.drop (nameIndex + 1)).take nameLength).map Char.ofNat)
      if trackName = "" then none else some trackName
    else none
  else none

/-- The loop over matches in extractTrackName (src lines 113-129): first
accepted name in scan order, none if every match is skipped or empty. -/
def nameFromMatches (buf : List Nat) : List Nat → Option String
  | [] => none
  | p :: rest =>
    match matchName buf p with
    | some nm => some nm
    | none => nameFromMatches buf rest

/-- extractTrackName (src line 84): reads a window of min(trackSize, 1024)
bytes without permanently moving the read position, scans it for the
0xFF 0x03 track-name meta-event marker, and falls back to "Track N" when
allocation fails, the position is unreadable, the read comes up short, or
no match yields a non-empty name. -/
def extractTrackName (allocOk : Bool) (stream : ByteStream)
    (trackNumber trackSize : Nat) : String × ByteStream :=
  let searchSize := min trackSize 1024
  if allocOk = false then ("Track " ++ toString trackNumber, stream)
  else
    match stream.tellg with
    | none => ("Track " ++ toString trackNumber, stream)
    | some currentPos =>
      match stream.read searchSize with
      | (searchBuffer, s1) =>
        if s1.fail then
          ("Track " ++ toString trackNumber, (s1.clearErr).seekAbs currentPos)
        else
          let s2 := (s1.seekAbs currentPos).clearErr
          let pattern := [0xFF, 0x03]
          let matchList := simpleSearch searchBuffer pattern
          match nameFromMatches searchBuffer matchList with
          | some nm => (nm, s2)
          | none => ("Track " ++ toString trackNumber, s2)

/-- One pass of std::replace for a single character (src line 139),
acting on the character list of the string. -/
def replaceChar (s : String) (c : Char) : String :=
  String.mk (s.data.map fun x => if x = c then '_' else x)

/-- getSafeFilename (src line 135): replaces every filesystem-reserved
character by an underscore, one std::replace pass per character. -/
def getSafeFilename (name : String) : String :=
  ['<', '>', ':', '"', '/', '\\', '|', '?', '*'].foldl replaceChar name

/-- The chunked copy loop of copyStream (src lines 145-162), as structural
recursion on an iteration budget.  Each iteration that recurses removes at
least one byte from size, so a budget of the initial size always covers
the loop; the budget-exhausted arm is never reached from copyStream.
A write to the output never fails in the model, so the throw on a failed
write is not represented; the in.eof() break coincides with the error
flag, which on this stream is set exactly by a short read. -/
def copyStreamAux : Nat → ByteStream → List Nat → Nat → ByteStream × List Nat
  | 0, s, out, _ => (s, out)
  | budget + 1, s, out, size =>
    if size = 0 then (s, out)
    else
      let bytesToRead := min size 4096
      match s.read bytesToRead with
      | (chunk, s1) =>
        if chunk.length = 0 then (s1, out)
        else
          let out1 := out ++ chunk
          if s1.fail then (s1, out1)
          else copyStreamAux budget s1 out1 (size - chunk.length)

/-- copyStream (src line 145): copies size bytes from the input stream to
the output buffer in chunks of at most 4096 bytes, stopping early without
error when the source is exhausted. -/
def copyStream (s : ByteStream) (out : List Nat) (size : Nat) :
    ByteStream × List Nat :=
  copyStreamAux size s out size

structure TrackInfo where
  number : Nat
  name : String
  size : Nat
  position : Nat
deriving DecidableEq

structure OutFile where
  path : String
  content : List Nat
deriving DecidableEq

inductive SplitError where
  | headerReadError
  | notMThd
  | invalidHeaderSize
  | unsupportedFormat
  | invalidTrackPosition (i : Nat)
  | trackHeaderReadError (i : Nat)
  | invalidTrackHeader (i : Nat)
  | seekNextTrackError (i : Nat)
  | seekToTrackError (n : Nat)
deriving DecidableEq

/-- The track-discovery loop of splitMIDIFile (src lines 244-292),
structurally recursive on the number of tracks still to read; idx is the
number of tracks already read.  The try/catch around extractTrackName
(src lines 269-277), whose handler would assign "Tempo Track" to track 1,
is not represented: extractTrackName in this model is total and cannot
throw, so the handler is unreachable. -/
def readTracksLoop (allocOk : Bool) :
    ByteStream → Nat → Nat → Except SplitError (List TrackInfo × ByteStream)
  | s, _, 0 => .ok ([], s)
  | s, idx, remaining + 1 =>
    match s.tellg with
    | none => .error (.invalidTrackPosition (idx + 1))
    | some trackStartPos =>
      match s.read 8 with
      | (trackHeader, s1) =>
        if s1.fail = true ∨ trackHeader.length ≠ 8 then
          .error (.trackHeaderReadError (idx + 1))
        else if trackHeader.take 4 ≠ [77, 84, 114, 107] then
          .error (.invalidTrackHeader (idx + 1))
        else
          let trackSize := bytesToUInt32 trackHeader 4
          match extractTrackName allocOk s1 (idx + 1) trackSize with
          | (nm, s2) =>
            let track : TrackInfo := ⟨idx + 1, nm, trackSize, trackStartPos⟩
            let s3 := s2.seekCur trackSize
            if s3.fail then .error (.seekNextTrackError (idx + 1))
            else
              match readTracksLoop allocOk s3 (idx + 1) remaining with
              | .error e => .error e
              | .ok (ts, s4) => .ok (track :: ts, s4)

/-- The candidate name recomputed inside the collision loop (src line 334). -/
def copyCandidate (baseName safeTrackName : String) (counter : Nat) : String :=
  baseName ++ " - " ++ safeTrackName ++ " (Copy " ++ toString counter ++ ").mid"

/-- The collision-avoidance loop of splitMIDIFile (src lines 332-335).
Faithful to the source: the loop recomputes outputFile from the counter,
but neither outputPath (the value the guard tests) nor counter is ever
updated inside the loop body.  The fuel argument bounds the number of
iterations the model is willing to unfold; none stands for a loop that is
still running when the budget runs out. -/
def collisionLoop (pathExists : String → Bool) (baseName safeTrackName : String)
    (outputPath : String) : String → Nat → Nat → Option String
  | outputFile, counter, fuel =>
    if pathExists outputPath then
      match fuel with
      | 0 => none
      | fuel1 + 1 =>
        collisionLoop pathExists baseName safeTrackName outputPath
          (copyCandidate baseName safeTrackName counter) counter fuel1
    else some outputFile

/-- fs::path(outputDir) / outputFile (src line 330). -/
def pathJoin (dir file : String) : String := dir ++ "/" ++ file

/-- The per-track writing loop of splitMIDIFile (src lines 321-364).
The filesystem is the list of paths that exist; creating an output file
appends its path (an ofstream creates the file on open, so later
fs::exists checks see it).  Output files are pairs of path and content;
the content starts with the synthesized header and then receives the
bytes copied from the source.  Returns none when a collision loop runs
out of fuel (models non-termination), otherwise the files created and
the first error, if any. -/
def writeTracksLoop (outputHeader : List Nat) (baseName outputDir : String)
    (fuel : Nat) :
    ByteStream → List String → List TrackInfo →
      Option (List OutFile × Option SplitError)
  | _, _, [] => some ([], none)
  | s, fsPaths, track :: rest =>
    let safeTrackName := getSafeFilename track.name
    let outputFile := baseName ++ " - " ++ safeTrackName ++ ".mid"
    let outputPath := pathJoin outputDir outputFile
    match collisionLoop (fun p => fsPaths.contains p) baseName safeTrackName
        outputPath outputFile 1 fuel with
    | none => none
    | some outputFile1 =>
      let outputPath1 := pathJoin outputDir outputFile1
      let fsPaths1 := fsPaths ++ [outputPath1]
      let s1 := (s.clearErr).seekAbs track.position
      if s1.fail then
        some ([⟨outputPath1, outputHeader⟩], some (.seekToTrackError track.number))
      else
        match copyStream s1 outputHeader (8 + track.size) with
        | (s2, content) =>
          match writeTracksLoop outputHeader baseName outputDir fuel
              s2 fsPaths1 rest with
          | none => none
          | some (outs, e) => some (⟨outputPath1, content⟩ :: outs, e)

structure SplitResult where
  err : Option SplitError
  tracks : List TrackInfo
  files : List OutFile
deriving DecidableEq

/-- splitMIDIFile (src line 204): header validation, track discovery, and
per-track writing.  The input file is given as its byte list (opening the
file is OS glue and cannot fail in the model), baseName stands for the
stem of the input path, fsPaths for the initial contents of the output
directory, and fuel bounds each collision loop.  The result none models a
run that never terminates; otherwise the result carries the first error
(none on success), the discovered tracks, and the files created. -/
def splitMIDIFile (allocOk : Bool) (fuel : Nat) (fsPaths : List String)
    (baseName outputDir : String) (data : List Nat) : Option SplitResult :=
  let s0 : ByteStream := ⟨data, 0, false⟩
  match s0.read 14 with
  | (headerData, s1) =>
    if s1.fail = true ∨ headerData.length ≠ 14 then
      some ⟨some .headerReadError, [], []⟩
    else if headerData.take 4 ≠ [77, 84, 104, 100] then
      some ⟨some .notMThd, [], []⟩
    else if bytesToUInt32 headerData 4 ≠ 6 then
      some ⟨some .invalidHeaderSize, [], []⟩
    else if bytesToUInt16 headerData 8 ≠ 1 then
      some ⟨some .unsupportedFormat, [], []⟩
    else
      let totalTracks := bytesToUInt16 headerData 10
      let division := headerData.drop 12
      match readTracksLoop allocOk s1 0 totalTracks with
      | .error e => some ⟨some e, [], []⟩
      | .ok (tracks, s2) =>
        let outputHeader :=
          [77, 84, 104, 100] ++ uint32ToBytes 6 ++ uint16ToBytes 1 ++
            uint16ToBytes 1 ++ division
        match writeTracksLoop outputHeader baseName outputDir fuel
            s2 fsPaths tracks with
        | none => none
        | some (files, e) => some ⟨e, tracks, files⟩

/-- Spec-side predicate: the pattern occurs in the text at offset i. -/
def occursAt (text pattern : List Nat) (i : Nat) : Prop :=
  i + pattern.length ≤ text.length ∧ (text.drop i).take pattern.length = pattern

/-- The byte window extractTrackName inspects for a given stream and
declared track size. -/
def nameWindow (s : ByteStream) (trackSize : Nat) : List Nat :=
  (s.data.drop s.pos).take (min trackSize 1024)

/-- Total size of the chunks of a track list: 8 header bytes plus the
declared payload length for each track. -/
def sizesSum (tracks : List TrackInfo) : Nat :=
  (tracks.map fun t => 8 + t.size).sum

/-- The recorded start positions of a track list are consecutive starting
at p: each track begins where the previous chunk ended. -/
def chainPos : Nat → List TrackInfo → Prop
  | _, [] => True
  | p, t :: ts => t.position = p ∧ chainPos (p + 8 + t.size) ts

/-- The 14-byte header every output file starts with, for an input with
the given header bytes. -/
def outputHeaderFor (data : List Nat) : List Nat :=
  [77, 84, 104, 100] ++ uint32ToBytes 6 ++ uint16ToBytes 1 ++
    uint16ToBytes 1 ++ (data.take 14).drop 12

/-- extractTrackName leaves the stream exactly as it found it: every exit
path either never touches it or rewinds to the saved position and clears
the error flag, which on entry matches the saved state. -/
theorem extractTrackName_stream (allocOk : Bool) (s : ByteStream) (n sz : Nat) :
    (extractTrackName allocOk s n sz).2 = s := by
  obtain ⟨d, p, f⟩ := s
  cases allocOk with
  | false => rfl
  | true =>
    cases f with
    | true => rfl
    | false =>
      simp only [extractTrackName, ByteStream.tellg, ByteStream.read,
        ByteStream.seekAbs, ByteStream.clearErr, if_neg, reduceIte]
      rcases Nat.lt_or_ge (d.length - p) (min sz 1024) with hlt | hge
      · simp [Nat.min_eq_right (Nat.le_of_lt hlt), hlt]
      · have hmin : min (min sz 1024) (d.length - p) = min sz 1024 :=
          Nat.min_eq_left hge
        simp only [hmin]
        have : ¬ (min sz 1024 < min sz 1024) := Nat.lt_irrefl _
        simp only [decide_eq_false this, Bool.false_eq_true, if_neg, reduceIte]
        cases nameFromMatches ((d.drop p).take (min sz 1024))
            (simpleSearch ((d.drop p).take (min sz 1024)) [0xFF, 0x03]) <;> simp

/-- Normal form of the name extractTrackName returns: the name decoded
from the search window when allocation succeeds, the stream is healthy
and the full window is available, the fallback otherwise. -/
theorem extractTrackName_eq (allocOk : Bool) (s : ByteStream) (n sz : Nat) :
    (extractTrackName allocOk s n sz).1 =
      if allocOk = true ∧ s.fail = false ∧ min sz 1024 ≤ s.data.length - s.pos then
        match nameFromMatches (nameWindow s sz)
            (simpleSearch (nameWindow s sz) [0xFF, 0x03]) with
        | some nm => nm
        | none => "Track " ++ toString n
      else "Track " ++ toString n := by
  obtain ⟨d, p, f⟩ := s
  cases allocOk with
  | false => simp [extractTrackName]
  | true =>
    cases f with
    | true => simp [extractTrackName, ByteStream.tellg]
    | false =>
      simp only [extractTrackName, ByteStream.tellg, ByteStream.read,
        ByteStream.seekAbs, ByteStream.clearErr, nameWindow, reduceIte]
      rcases Nat.lt_or_ge (d.length - p) (min sz 1024) with hlt | hge
      · have hmin : min (min sz 1024) (d.length - p) = d.length - p :=
          Nat.min_eq_right (Nat.le_of_lt hlt)
        simp [hmin, hlt, Nat.not_le.mpr hlt]
      · have hmin : min (min sz 1024) (d.length - p) = min sz 1024 :=
          Nat.min_eq_left hge
        have hnlt : ¬ (min sz 1024 < min sz 1024) := Nat.lt_irrefl _
        simp only [hmin, decide_eq_false hnlt, Bool.false_eq_true, reduceIte,
          true_and, hge, and_true, if_pos]
        cases nameFromMatches ((d.drop p).take (min sz 1024))
            (simpleSearch ((d.drop p).take (min sz 1024)) [0xFF, 0x03]) <;> simp

/-- The inner comparison loop of simpleSearch decides whether the pattern
occurs at position i, provided that many bytes are in bounds. -/
theorem matchesFrom_iff (text : List Nat) :
    ∀ (pat : List Nat) (i : Nat), i + pat.length ≤ text.length →
      (matchesFrom text i pat = true ↔ (text.drop i).take pat.length = pat) := by
  intro pat
  induction pat with
  | nil => intro i _; simp [matchesFrom]
  | cons b rest ih =>
    intro i hlen
    have hi : i < text.length := by simp at hlen; omega
    have hdrop : text.drop i = text[i] :: text.drop (i + 1) :=
      List.drop_eq_getElem_cons hi
    have hgetD : text.getD i 0 = text[i] := by
      simp [List.getD_eq_getElem?_getD, List.getElem?_eq_getElem hi]
    rw [matchesFrom, hdrop]
    simp only [List.length_cons, List.take_succ_cons, List.cons.injEq,
      Bool.and_eq_true, beq_iff_eq, hgetD]
    constructor
    · rintro ⟨h1, h2⟩
      exact ⟨h1, (ih (i + 1) (by simp at hlen ⊢; omega)).mp h2⟩
    · rintro ⟨h1, h2⟩
      exact ⟨h1, (ih (i + 1) (by simp at hlen ⊢; omega)).mpr h2⟩

/-- Every offset the scan loop returns is at least the starting index. -/
theorem searchLoopF_lb (text pat : List Nat) :
    ∀ (fuel i p : Nat), p ∈ searchLoopF text pat i fuel → i ≤ p := by
  intro fuel
  induction fuel with
  | zero => intro i p hp; simp [searchLoopF] at hp
  | succ fuel ih =>
    intro i p hp
    rw [searchLoopF] at hp
    split at hp
    · split at hp
      · rcases List.mem_cons.mp hp with rfl | hp
        · exact Nat.le_refl _
        · have := ih (i + pat.length) p hp; omega
      · have := ih (i + 1) p hp; omega
    · simp at hp

/-- Every offset the scan loop returns is a genuine occurrence. -/
theorem searchLoopF_sound (text pat : List Nat) (hm : pat.length ≤ text.length) :
    ∀ (fuel i p : Nat), p ∈ searchLoopF text pat i fuel → occursAt text pat p := by
  intro fuel
  induction fuel with
  | zero => intro i p hp; simp [searchLoopF] at hp
  | succ fuel ih =>
    intro i p hp
    rw [searchLoopF] at hp
    split at hp
    · rename_i hguard
      split at hp
      · rename_i hmat
        rcases List.mem_cons.mp hp with rfl | hp
        · have hfit : p + pat.length ≤ text.length := by omega
          exact ⟨hfit, (matchesFrom_iff text pat p hfit).mp hmat⟩
        · exact ih (p := p) _ hp
      · exact ih (p := p) _ hp
    · simp at hp

/-- Offsets returned by the scan loop are spaced at least a pattern length
apart, in increasing order. -/
theorem searchLoopF_spaced (text pat : List Nat) :
    ∀ (fuel i : Nat),
      (searchLoopF text pat i fuel).Pairwise fun a b => a + pat.length ≤ b := by
  intro fuel
  induction fuel with
  | zero => intro i; simp [searchLoopF]
  | succ fuel ih =>
    intro i
    rw [searchLoopF]
    split
    · split
      · exact List.pairwise_cons.mpr
          ⟨fun b hb => searchLoopF_lb text pat fuel _ b hb, ih _⟩
      · exact ih _
    · simp

/-- Every occurrence at or after the scan position is covered by some
returned offset: it is the offset itself or overlaps the match there. -/
theorem searchLoopF_complete (text pat : List Nat)
    (hm : pat.length ≤ text.length) (hpat : pat ≠ []) :
    ∀ (fuel i : Nat), text.length - pat.length + 1 - i ≤ fuel →
      ∀ q, i ≤ q → occursAt text pat q →
        ∃ p ∈ searchLoopF text pat i fuel, p ≤ q ∧ q < p + pat.length := by
  have hm1 : 1 ≤ pat.length := List.length_pos.mpr hpat
  intro fuel
  induction fuel with
  | zero =>
    intro i hfuel q hq hocc
    exact absurd hocc.1 (by omega)
  | succ fuel ih =>
    intro i hfuel q hq hocc
    rw [searchLoopF]
    by_cases hguard : i ≤ text.length - pat.length
    · rw [if_pos hguard]
      cases hmat : matchesFrom text i pat with
      | true =>
        rw [if_pos rfl]
        by_cases hql : q < i + pat.length
        · exact ⟨i, List.mem_cons_self .., hq, hql⟩
        · obtain ⟨p, hp, hpq⟩ :=
            ih (i + pat.length) (by omega) q (by omega) hocc
          exact ⟨p, List.mem_cons_of_mem _ hp, hpq⟩
      | false =>
        simp only [Bool.false_eq_true, if_neg, reduceIte]
        have hqi : q ≠ i := by
          rintro rfl
          rw [(matchesFrom_iff text pat q hocc.1).mpr hocc.2] at hmat
          simp at hmat
        exact ih (i + 1) (by omega) q (by omega) hocc
    · have : q + pat.length ≤ text.length := hocc.1
      omega

/-- The non-degenerate branch of simpleSearch runs the scan loop from 0
with sufficient fuel. -/
theorem simpleSearch_eq_loop (text pat : List Nat) (hpat : pat ≠ [])
    (hm : pat.length ≤ text.length) :
    simpleSearch text pat = searchLoopF text pat 0 (text.length + 1) := by
  rw [simpleSearch, if_neg]
  simp [List.isEmpty_iff, hpat, Nat.not_lt.mpr hm]

/-- Soundness at the simpleSearch level. -/
theorem simpleSearch_sound (text pat : List Nat) :
    ∀ p ∈ simpleSearch text pat, occursAt text pat p := by
  intro p hp
  rw [simpleSearch] at hp
  split at hp
  · simp at hp
  · rename_i hcond
    simp only [Bool.or_eq_true, not_or, List.isEmpty_iff, decide_eq_true_eq]
      at hcond
    exact searchLoopF_sound text pat (Nat.not_lt.mp hcond.2) _ _ p hp

/-- Spacing at the simpleSearch level. -/
theorem simpleSearch_spaced (text pat : List Nat) :
    (simpleSearch text pat).Pairwise fun a b => a + pat.length ≤ b := by
  rw [simpleSearch]
  split
  · simp
  · exact searchLoopF_spaced text pat _ 0

/-- Completeness at the simpleSearch level. -/
theorem simpleSearch_complete (text pat : List Nat) (hpat : pat ≠ [])
    (q : Nat) (hocc : occursAt text pat q) :
    ∃ p ∈ simpleSearch text pat, p ≤ q ∧ q < p + pat.length := by
  have hm : pat.length ≤ text.length := by
    have := hocc.1; omega
  rw [simpleSearch_eq_loop text pat hpat hm]
  exact searchLoopF_complete text pat hm hpat (text.length + 1) 0
    (by omega) q (Nat.zero_le q) hocc

/-- A name accepted by the per-match body is never empty: the source only
returns a decoded name after checking it is non-empty. -/
theorem matchName_some_ne (buf : List Nat) (p : Nat) (nm : String)
    (h : matchName buf p = some nm) : nm ≠ "" := by
  simp only [matchName] at h
  split at h
  · split at h
    · split at h
      · exact absurd h (by simp)
      · rename_i hne
        rw [Option.some.injEq] at h
        exact h ▸ hne
    · exact absurd h (by simp)
  · exact absurd h (by simp)

/-- If every match is rejected, the match loop yields no name. -/
theorem nameFromMatches_eq_none (buf : List Nat) :
    ∀ ms : List Nat, (∀ p ∈ ms, matchName buf p = none) →
      nameFromMatches buf ms = none := by
  intro ms
  induction ms with
  | nil => intro _; rfl
  | cons a rest ih =>
    intro h
    rw [nameFromMatches, h a (List.mem_cons_self ..)]
    exact ih fun p hp => h p (List.mem_cons_of_mem _ hp)

/-- A name produced by the match loop is never empty. -/
theorem nameFromMatches_some_ne (buf : List Nat) :
    ∀ (ms : List Nat) (nm : String),
      nameFromMatches buf ms = some nm → nm ≠ "" := by
  intro ms
  induction ms with
  | nil => intro nm h; exact absurd h (by simp [nameFromMatches])
  | cons a rest ih =>
    intro nm h
    rw [nameFromMatches] at h
    cases hma : matchName buf a with
    | some x =>
      rw [hma, Option.some.injEq] at h
      exact matchName_some_ne buf a nm (h ▸ hma)
    | none =>
      rw [hma] at h
      exact ih nm h

/-- On a list of strictly increasing match offsets, the match loop returns
the name of the first offset whose match is accepted. -/
theorem nameFromMatches_first (buf : List Nat) (p : Nat) (nm : String) :
    ∀ ms : List Nat, ms.Pairwise (· < ·) → p ∈ ms →
      (∀ q ∈ ms, q < p → matchName buf q = none) →
      matchName buf p = some nm → nameFromMatches buf ms = some nm := by
  intro ms
  induction ms with
  | nil => intro _ hp; simp at hp
  | cons a rest ih =>
    intro hpw hp hnone hsome
    rw [nameFromMatches]
    rcases List.mem_cons.mp hp with rfl | hp2
    · rw [hsome]
    · have ha : a < p := (List.pairwise_cons.mp hpw).1 p hp2
      rw [hnone a (List.mem_cons_self ..) ha]
      exact ih (List.pairwise_cons.mp hpw).2 hp2
        (fun q hq hqp => hnone q (List.mem_cons_of_mem _ hq) hqp) hsome

/-- The fallback name is never the empty string. -/
theorem trackFallback_ne (n : Nat) : ("Track " ++ toString n) ≠ "" := by
  intro h
  have hlen := congrArg String.length h
  rw [String.length_append] at hlen
  have h6 : ("Track " : String).length = 6 := rfl
  have h0 : ("" : String).length = 0 := rfl
  omega

/-- Claim C8: simpleSearch returns the empty list when the needle is empty
or longer than the haystack; otherwise every returned offset is a genuine
occurrence, returned offsets are increasing and at least a needle length
apart (non-overlapping, scan resuming after each match), and every
occurrence in the text overlaps some returned offset, so the returned
offsets are exactly those of the left-to-right non-overlapping scan. -/
theorem simpleSearch_contract (text pat : List Nat) :
    (pat = [] → simpleSearch text pat = []) ∧
    (text.length < pat.length → simpleSearch text pat = []) ∧
    (∀ p ∈ simpleSearch text pat, occursAt text pat p) ∧
    ((simpleSearch text pat).Pairwise fun a b => a + pat.length ≤ b) ∧
    (pat ≠ [] → ∀ q, occursAt text pat q →
      ∃ p ∈ simpleSearch text pat, p ≤ q ∧ q < p + pat.length) := by
  refine ⟨?_, ?_, simpleSearch_sound text pat, simpleSearch_spaced text pat,
    fun hpat q hq => simpleSearch_complete text pat hpat q hq⟩
  · intro h; subst h; simp [simpleSearch]
  · intro h; rw [simpleSearch, if_pos]; simp [h]

/-- Witness for claim C8 at a concrete haystack and needle. -/
theorem simpleSearch_contract_case :
    ∃ p ∈ simpleSearch [255, 3, 0, 255, 3] [255, 3], p ≤ 3 ∧ 3 < p + 2 :=
  (simpleSearch_contract [255, 3, 0, 255, 3] [255, 3]).2.2.2.2 (by decide)
    3 ⟨by decide, by decide⟩

/-- Claim C9: extractTrackName restores the read position of the byte
source on every path: success, no-match fallback, short-read fallback and
allocation-failure fallback are all covered by the universal statement. -/
theorem extractTrackName_restoresPos (allocOk : Bool) (s : ByteStream)
    (n sz : Nat) : (extractTrackName allocOk s n sz).2.pos = s.pos := by
  rw [extractTrackName_stream]

/-- Claim C10: extractTrackName always returns a non-empty string: decoded
names are accepted only when non-empty and the fallback is non-empty. -/
theorem extractTrackName_nonEmpty (allocOk : Bool) (s : ByteStream)
    (n sz : Nat) : (extractTrackName allocOk s n sz).1 ≠ "" := by
  rw [extractTrackName_eq]
  split
  · cases hnf : nameFromMatches (nameWindow s sz)
        (simpleSearch (nameWindow s sz) [0xFF, 0x03]) with
    | some nm => exact nameFromMatches_some_ne _ _ nm hnf
    | none => exact trackFallback_ne n
  · exact trackFallback_ne n

/-- Claim C3 (amended): when no marker match in the search window yields a
usable name, the derived display name is the fallback "Track N" with the
1-based ordinal, for every track number including 1; the distinguished
"Tempo Track" name lives only in the exception handler of the caller,
which is unreachable because extractTrackName cannot throw. -/
theorem extractTrackName_fallbackName (allocOk : Bool) (s : ByteStream)
    (n sz : Nat)
    (hnone : ∀ p ∈ simpleSearch (nameWindow s sz) [0xFF, 0x03],
      matchName (nameWindow s sz) p = none) :
    (extractTrackName allocOk s n sz).1 = "Track " ++ toString n := by
  rw [extractTrackName_eq]
  split
  · rw [nameFromMatches_eq_none _ _ hnone]
  · rfl

/-- Witness for claim C3 at track number 1 with a marker-free window. -/
theorem extractTrackName_fallbackName_case :
    (extractTrackName true ⟨[0, 0, 0, 0], 0, false⟩ 1 4).1 =
      "Track " ++ toString 1 :=
  extractTrackName_fallbackName true ⟨[0, 0, 0, 0], 0, false⟩ 1 4 (by decide)

/-- Claim C3 counterexample: a Format-1 file whose single track has no
name marker derives the display name "Track 1" for track 1, not the
"Tempo Track" the claim requires. -/
theorem track1_fallback_refuted :
    splitMIDIFile true 0 [] "Song" "out"
        [77, 84, 104, 100, 0, 0, 0, 6, 0, 1, 0, 1, 0, 96,
         77, 84, 114, 107, 0, 0, 0, 1, 7] =
      some ⟨none, [⟨1, "Track 1", 1, 14⟩],
        [⟨"out/Song - Track 1.mid",
          [77, 84, 104, 100, 0, 0, 0, 6, 0, 1, 0, 1, 0, 96,
           77, 84, 114, 107, 0, 0, 0, 1, 7]⟩]⟩ ∧
    "Track 1" ≠ "Tempo Track" := by
  exact ⟨by decide, by decide⟩

/-- Claim C4: when allocation succeeds and the full window is available,
extractTrackName scans the marker matches in increasing offset order,
skips every match that is rejected (in particular one whose length byte
would read past the window), and returns the first decoded non-empty
name. -/
theorem extractTrackName_firstMatch (s : ByteStream) (n sz p : Nat)
    (nm : String)
    (hfail : s.fail = false)
    (hav : s.pos + min sz 1024 ≤ s.data.length)
    (hp : p ∈ simpleSearch (nameWindow s sz) [0xFF, 0x03])
    (hnm : matchName (nameWindow s sz) p = some nm)
    (hfirst : ∀ q ∈ simpleSearch (nameWindow s sz) [0xFF, 0x03], q < p →
      matchName (nameWindow s sz) q = none) :
    (extractTrackName true s n sz).1 = nm := by
  rw [extractTrackName_eq, if_pos ⟨rfl, hfail, by omega⟩]
  have hsorted : (simpleSearch (nameWindow s sz) [0xFF, 0x03]).Pairwise (· < ·) :=
    (simpleSearch_spaced (nameWindow s sz) [0xFF, 0x03]).imp
      (fun h => by simp only [List.length_cons, List.length_nil] at h; omega)
  rw [nameFromMatches_first (nameWindow s sz) p nm _ hsorted hp hfirst hnm]

/-- Witness for claim C4: a track starting with the marker, length 4 and
the bytes of "Bass" derives the display name "Bass". -/
theorem extractTrackName_firstMatch_case :
    (extractTrackName true ⟨[255, 3, 4, 66, 97, 115, 115, 0], 0, false⟩ 5 8).1 =
      "Bass" :=
  extractTrackName_firstMatch ⟨[255, 3, 4, 66, 97, 115, 115, 0], 0, false⟩
    5 8 0 "Bass" rfl (by decide) (by decide) (by decide) (by decide)

/-- Once the guard path exists, the collision loop can never exit: the
body rewrites the candidate file name but never the tested path. -/
theorem collisionLoop_stuck (pathExists : String → Bool) (b sn op : String)
    (hex : pathExists op = true) :
    ∀ (fuel : Nat) (outFile : String) (counter : Nat),
      collisionLoop pathExists b sn op outFile counter fuel = none := by
  intro fuel
  induction fuel with
  | zero => intro outFile counter; rw [collisionLoop, if_pos hex]
  | succ fuel ih =>
    intro outFile counter
    rw [collisionLoop, if_pos hex]
    exact ih _ _

/-- Claim C2 (code behavior at the failing input): with the directory
already containing "Song - Bass.mid", the collision loop of the source
runs forever — for every iteration budget it has not terminated — because
the loop body never updates the tested path or the counter. -/
theorem collisionLoop_diverges :
    ∀ fuel : Nat,
      collisionLoop (fun p => p == pathJoin "out" "Song - Bass.mid")
        "Song" "Bass" (pathJoin "out" "Song - Bass.mid")
        "Song - Bass.mid" 1 fuel = none :=
  fun fuel =>
    collisionLoop_stuck _ "Song" "Bass" _ (by decide) fuel _ _

/-- Bitwise or is addition when the left operand is a multiple of a power
of two and the right operand lies below it: the bit ranges are disjoint. -/
theorem lor_eq_add_pow (n x y : Nat) (hx : 2 ^ n ∣ x) (hy : y < 2 ^ n) :
    x ||| y = x + y := by
  obtain ⟨k, rfl⟩ := hx
  apply Nat.eq_of_testBit_eq
  intro i
  rw [Nat.testBit_or]
  rcases Nat.lt_or_ge i n with hin | hin
  · have h2i : 0 < (2 : Nat) ^ i := Nat.two_pow_pos i
    have hsplit : (2 : Nat) ^ n = 2 ^ i * 2 ^ (n - i) := by
      rw [← pow_add]; congr 1; omega
    obtain ⟨m, hm⟩ : ∃ m, 2 ^ (n - i) * k = 2 * m :=
      ⟨2 ^ (n - i - 1) * k, by
        rw [← Nat.mul_assoc, ← pow_succ']; congr 2; omega⟩
    have hb1 : Nat.testBit (2 ^ n * k) i = false := by
      rw [Nat.testBit_to_div_mod, hsplit, Nat.mul_assoc,
        Nat.mul_div_cancel_left _ h2i, hm]
      simp [Nat.mul_mod_right]
    have hb2 : Nat.testBit (2 ^ n * k + y) i = Nat.testBit y i := by
      rw [Nat.testBit_to_div_mod, Nat.testBit_to_div_mod, hsplit,
        Nat.mul_assoc, Nat.mul_add_div h2i, hm, Nat.mul_add_mod]
    rw [hb1, hb2, Bool.false_or]
  · have hylt : y < 2 ^ i :=
      lt_of_lt_of_le hy (Nat.pow_le_pow_right (by norm_num) hin)
    have hb2 : Nat.testBit y i = false := Nat.testBit_lt_two_pow hylt
    have h2i : 0 < (2 : Nat) ^ i := Nat.two_pow_pos i
    obtain ⟨t, ht⟩ : (2 : Nat) ^ n ∣ 2 ^ n * k % 2 ^ i :=
      (Nat.dvd_mod_iff (pow_dvd_pow 2 hin)).mpr (Dvd.intro k rfl)
    have hrlt : 2 ^ n * k % 2 ^ i < 2 ^ i := Nat.mod_lt _ h2i
    have hsplit : (2 : Nat) ^ i = 2 ^ n * 2 ^ (i - n) := by
      rw [← pow_add]; congr 1; omega
    have htlt : t + 1 ≤ 2 ^ (i - n) := by
      rw [ht, hsplit] at hrlt
      exact Nat.lt_of_mul_lt_mul_left hrlt
    have hn0 : 0 < (2 : Nat) ^ n := Nat.two_pow_pos n
    have hsum : 2 ^ n * k % 2 ^ i + y < 2 ^ i := by
      calc 2 ^ n * k % 2 ^ i + y < 2 ^ n * t + 2 ^ n := by rw [ht]; omega
        _ = 2 ^ n * (t + 1) := by ring
        _ ≤ 2 ^ n * 2 ^ (i - n) := Nat.mul_le_mul_left _ htlt
        _ = 2 ^ i := hsplit.symm
    have hdiv : (2 ^ n * k + y) / 2 ^ i = 2 ^ n * k / 2 ^ i := by
      have hrw : 2 ^ n * k + y =
          2 ^ i * (2 ^ n * k / 2 ^ i) + (2 ^ n * k % 2 ^ i + y) := by
        rw [← Nat.add_assoc, Nat.div_add_mod]
      rw [hrw, Nat.mul_add_div h2i, Nat.div_eq_of_lt hsum, Nat.add_zero]
    rw [hb2, Bool.or_false, Nat.testBit_to_div_mod, Nat.testBit_to_div_mod,
      hdiv]

/-- On offsets whose size_t sums do not wrap, the decoders do follow the
documented contract: 0 when fewer than 4 (respectively 2) bytes remain
at the offset, the big-endian integer value of the bytes otherwise. -/
theorem byteCodec_value (bytes : List Nat) (offset : Nat)
    (hoff : offset + 4 < sizeTMod) :
    (offset + 4 > bytes.length → bytesToUInt32 bytes offset = 0) ∧
    (offset + 2 > bytes.length → bytesToUInt16 bytes offset = 0) ∧
    (offset + 4 ≤ bytes.length → (∀ b ∈ bytes, b < 256) →
      bytesToUInt32 bytes offset =
        bytes.getD offset 0 * 16777216 + bytes.getD (offset + 1) 0 * 65536 +
          bytes.getD (offset + 2) 0 * 256 + bytes.getD (offset + 3) 0) ∧
    (offset + 2 ≤ bytes.length → (∀ b ∈ bytes, b < 256) →
      bytesToUInt16 bytes offset =
        bytes.getD offset 0 * 256 + bytes.getD (offset + 1) 0) := by
  have h64 : sizeTMod = 18446744073709551616 := by norm_num [sizeTMod]
  have hm0 : offset % sizeTMod = offset := Nat.mod_eq_of_lt (by omega)
  have hm1 : (offset + 1) % sizeTMod = offset + 1 := Nat.mod_eq_of_lt (by omega)
  have hm2 : (offset + 2) % sizeTMod = offset + 2 := Nat.mod_eq_of_lt (by omega)
  have hm3 : (offset + 3) % sizeTMod = offset + 3 := Nat.mod_eq_of_lt (by omega)
  have hm4 : (offset + 4) % sizeTMod = offset + 4 := Nat.mod_eq_of_lt (by omega)
  have hg : ∀ hb : ∀ b ∈ bytes, b < 256, ∀ m, m < bytes.length →
      bytes.getD m 0 < 256 := by
    intro hb m hm
    have he : bytes.getD m 0 = bytes[m] := by
      simp [List.getD_eq_getElem?_getD, List.getElem?_eq_getElem hm]
    rw [he]
    exact hb _ (List.getElem_mem hm)
  refine ⟨fun h => by rw [bytesToUInt32, hm4, if_pos h],
    fun h => by rw [bytesToUInt16, hm2, if_pos h], ?_, ?_⟩
  · intro hle hb
    have hb0 := hg hb offset (by omega)
    have hb1 := hg hb (offset + 1) (by omega)
    have hb2 := hg hb (offset + 2) (by omega)
    have hb3 := hg hb (offset + 3) (by omega)
    rw [bytesToUInt32, hm4, hm0, hm1, hm2, hm3, if_neg (by omega),
      Nat.shiftLeft_eq, Nat.shiftLeft_eq, Nat.shiftLeft_eq]
    rw [lor_eq_add_pow 24 _ _ (dvd_mul_left _ _)
      (by simp only [show (2 : Nat) ^ 16 = 65536 from by norm_num,
        show (2 : Nat) ^ 24 = 16777216 from by norm_num]; omega)]
    rw [lor_eq_add_pow 16 _ _
      (dvd_add ((pow_dvd_pow 2 (by norm_num : (16 : Nat) ≤ 24)).mul_left _)
        (dvd_mul_left _ _))
      (by simp only [show (2 : Nat) ^ 8 = 256 from by norm_num,
        show (2 : Nat) ^ 16 = 65536 from by norm_num]; omega)]
    rw [lor_eq_add_pow 8 _ _
      (dvd_add (dvd_add ((pow_dvd_pow 2 (by norm_num : (8 : Nat) ≤ 24)).mul_left _)
        ((pow_dvd_pow 2 (by norm_num : (8 : Nat) ≤ 16)).mul_left _))
        (dvd_mul_left _ _))
      (by simp only [show (2 : Nat) ^ 8 = 256 from by norm_num]; omega)]
    norm_num
  · intro hle hb
    have hb0 := hg hb offset (by omega)
    have hb1 := hg hb (offset + 1) (by omega)
    rw [bytesToUInt16, hm2, hm0, hm1, if_neg (by omega), Nat.shiftLeft_eq]
    rw [lor_eq_add_pow 8 _ _ (dvd_mul_left _ _)
      (by simp only [show (2 : Nat) ^ 8 = 256 from by norm_num]; omega)]
    norm_num

/-- Claim C7 (code behavior at the failing input): at offset 2^64 - 4 the
size_t guard sum offset + 4 wraps to 0, so the guard is skipped even on
a 3-byte buffer and the 32-bit decoder reads the vector out of bounds
instead of returning 0 without touching it; the 16-bit decoder does the
same at offset 2^64 - 2 on a 1-byte buffer. -/
theorem byteCodec_wrap_oob :
    bytesToUInt32InBounds [1, 2, 3] (2 ^ 64 - 4) = false ∧
    bytesToUInt16InBounds [1] (2 ^ 64 - 2) = false := by
  decide

/-- Claim C5 (code behavior at the failing input): a one-track file whose
track declares 100 bytes but provides only 5 passes discovery without any
error — the relative seek beyond the end of the file succeeds, so the
check after it never fires — and an output file is created whose chunk is
cut short at the available bytes. -/
theorem truncatedTrack_passes_discovery :
    splitMIDIFile true 0 [] "Song" "out"
        [77, 84, 104, 100, 0, 0, 0, 6, 0, 1, 0, 1, 0, 96,
         77, 84, 114, 107, 0, 0, 0, 100, 1, 2, 3, 4, 5] =
      some ⟨none, [⟨1, "Track 1", 100, 14⟩],
        [⟨"out/Song - Track 1.mid",
          [77, 84, 104, 100, 0, 0, 0, 6, 0, 1, 0, 1, 0, 96,
           77, 84, 114, 107, 0, 0, 0, 100, 1, 2, 3, 4, 5]⟩]⟩ := by
  decide

/-- Claim C6: a structurally well-formed header whose format field is not
1 makes splitMIDIFile fail with the unsupported-format error before any
track is recorded or any output file is created. -/
theorem splitMIDIFile_unsupportedFormat (allocOk : Bool) (fuel : Nat)
    (fsPaths : List String) (baseName outputDir : String) (data : List Nat)
    (h14 : 14 ≤ data.length)
    (hmagic : data.take 4 = [77, 84, 104, 100])
    (hsize : bytesToUInt32 (data.take 14) 4 = 6)
    (hfmt : bytesToUInt16 (data.take 14) 8 ≠ 1) :
    splitMIDIFile allocOk fuel fsPaths baseName outputDir data =
      some ⟨some .unsupportedFormat, [], []⟩ := by
  have hread : (⟨data, 0, false⟩ : ByteStream).read 14 =
      (data.take 14, ⟨data, 14, false⟩) := by
    simp [ByteStream.read, Nat.min_eq_left h14]
  have hlen14 : (data.take 14).length = 14 := by
    rw [List.length_take]; omega
  have htake4 : (data.take 14).take 4 = [77, 84, 104, 100] := by
    rw [List.take_take]; simpa using hmagic
  simp only [splitMIDIFile, hread]
  rw [if_neg (by simp [hlen14])]
  rw [if_neg (by simp [htake4])]
  rw [if_neg (by simp [hsize])]
  rw [if_pos hfmt]

/-- Witness for claim C6: a format-2 header is rejected with no tracks
and no files. -/
theorem splitMIDIFile_unsupportedFormat_case :
    splitMIDIFile true 0 [] "Song" "out"
        [77, 84, 104, 100, 0, 0, 0, 6, 0, 2, 0, 1, 0, 96] =
      some ⟨some .unsupportedFormat, [], []⟩ :=
  splitMIDIFile_unsupportedFormat true 0 [] "Song" "out" _
    (by decide) (by decide) (by decide) (by decide)

/-- When the requested range is fully available, the copy loop copies it
verbatim and leaves the stream positioned after it. -/
theorem copyStreamAux_spec :
    ∀ (budget : Nat) (s : ByteStream) (out : List Nat) (size : Nat),
      s.fail = false → s.pos + size ≤ s.data.length → size ≤ budget →
      copyStreamAux budget s out size =
        (⟨s.data, s.pos + size, false⟩,
          out ++ (s.data.drop s.pos).take size) := by
  intro budget
  induction budget with
  | zero =>
    intro s out size hfail hav hb
    obtain ⟨d, p, f⟩ := s
    cases f with
    | true => simp at hfail
    | false =>
      have hsz : size = 0 := by omega
      subst hsz
      simp [copyStreamAux]
  | succ budget ih =>
    intro s out size hfail hav hb
    obtain ⟨d, p, f⟩ := s
    cases f with
    | true => simp at hfail
    | false =>
      rw [copyStreamAux]
      by_cases hsz : size = 0
      · subst hsz; simp
      · rw [if_neg hsz]
        simp only at hav
        have hbtr : min size 4096 ≤ d.length - p := by omega
        have hread : (⟨d, p, false⟩ : ByteStream).read (min size 4096) =
            ((d.drop p).take (min size 4096),
              ⟨d, p + min size 4096, false⟩) := by
          simp [ByteStream.read, Nat.min_eq_left hbtr]
        simp only [hread]
        have hchunk : ((d.drop p).take (min size 4096)).length =
            min size 4096 := by
          rw [List.length_take, List.length_drop]
          omega
        rw [if_neg (by rw [hchunk]; omega)]
        rw [if_neg (by simp)]
        rw [hchunk]
        rw [ih ⟨d, p + min size 4096, false⟩
          (out ++ (d.drop p).take (min size 4096)) (size - min size 4096)
          rfl (by simp; omega) (by omega)]
        have hpos : p + min size 4096 + (size - min size 4096) = p + size := by
          omega
        rw [hpos]
        have hsplit : (d.drop p).take size =
            (d.drop p).take (min size 4096) ++
              ((d.drop p).drop (min size 4096)).take (size - min size 4096) := by
          conv_lhs => rw [show size = min size 4096 + (size - min size 4096)
            from by omega]
          rw [List.take_add]
        rw [List.drop_drop] at hsplit
        simp only [List.append_assoc]
        rw [← hsplit]

/-- copyStream copies exactly the requested range when it is available. -/
theorem copyStream_spec (s : ByteStream) (out : List Nat) (size : Nat)
    (hfail : s.fail = false) (hav : s.pos + size ≤ s.data.length) :
    copyStream s out size =
      (⟨s.data, s.pos + size, false⟩,
        out ++ (s.data.drop s.pos).take size) :=
  copyStreamAux_spec size s out size hfail hav (Nat.le_refl size)

/-- A successful discovery pass reads exactly the requested number of
tracks, records consecutive chunk start positions, preserves the
underlying bytes, and leaves the stream just past the declared chunks. -/
theorem readTracksLoop_spec :
    ∀ (cnt : Nat) (allocOk : Bool) (s : ByteStream) (idx : Nat)
      (tracks : List TrackInfo) (s4 : ByteStream),
      s.fail = false →
      readTracksLoop allocOk s idx cnt = .ok (tracks, s4) →
      tracks.length = cnt ∧ s4.data = s.data ∧ s4.fail = false ∧
        s4.pos = s.pos + sizesSum tracks ∧ chainPos s.pos tracks := by
  intro cnt
  induction cnt with
  | zero =>
    intro allocOk s idx tracks s4 hfail h
    rw [readTracksLoop] at h
    simp only [Except.ok.injEq, Prod.mk.injEq] at h
    obtain ⟨h1, h2⟩ := h
    subst h1; subst h2
    simp [sizesSum, chainPos, hfail]
  | succ cnt ih =>
    intro allocOk s idx tracks s4 hfail h
    obtain ⟨d, p, f⟩ := s
    cases f with
    | true => simp at hfail
    | false =>
      rw [readTracksLoop] at h
      simp only [ByteStream.tellg, Bool.false_eq_true, if_neg, reduceIte] at h
      by_cases hg : 8 ≤ d.length - p
      · have hread : (⟨d, p, false⟩ : ByteStream).read 8 =
            ((d.drop p).take 8, ⟨d, p + 8, false⟩) := by
          simp [ByteStream.read, Nat.min_eq_left hg]
        rw [hread] at h
        have hlen8 : ((d.drop p).take 8).length = 8 := by
          rw [List.length_take, List.length_drop]; omega
        rw [if_neg (by simp [hlen8])] at h
        by_cases hmagic : ((d.drop p).take 8).take 4 = [77, 84, 114, 107]
        · rw [if_neg (by simpa using hmagic)] at h
          rcases hext : extractTrackName allocOk ⟨d, p + 8, false⟩ (idx + 1)
              (bytesToUInt32 ((d.drop p).take 8) 4) with ⟨nm, s2⟩
          have hs2 : s2 = ⟨d, p + 8, false⟩ := by
            have := extractTrackName_stream allocOk ⟨d, p + 8, false⟩ (idx + 1)
              (bytesToUInt32 ((d.drop p).take 8) 4)
            rw [hext] at this
            exact this
          rw [hext] at h
          subst hs2
          simp only [ByteStream.seekCur, Bool.false_eq_true, if_neg,
            reduceIte] at h
          rcases hrec : readTracksLoop allocOk
              ⟨d, p + 8 + bytesToUInt32 ((d.drop p).take 8) 4, false⟩
              (idx + 1) cnt with e | ⟨ts, s5⟩
          · rw [hrec] at h; simp at h
          · rw [hrec] at h
            simp only [Except.ok.injEq, Prod.mk.injEq] at h
            obtain ⟨h1, h2⟩ := h
            subst h1; subst h2
            obtain ⟨hl, hd, hf, hp, hc⟩ := ih allocOk _ (idx + 1) ts _ rfl hrec
            simp only at hd hp
            refine ⟨by simp [hl], hd, hf, ?_, ?_⟩
            · rw [hp]
              simp [sizesSum]
              omega
            · exact ⟨rfl, by simpa using hc⟩
        · rw [if_pos (by simpa using hmagic)] at h
          simp at h
      · have hgproof : min 8 (d.length - p) = d.length - p :=
          Nat.min_eq_right (by omega)
        have hread : (⟨d, p, false⟩ : ByteStream).read 8 =
            ((d.drop p).take (d.length - p),
              ⟨d, p + (d.length - p), decide (d.length - p < 8)⟩) := by
          simp [ByteStream.read, hgproof]
        rw [hread] at h
        rw [if_pos (Or.inl (by simp; omega))] at h
        simp at h

/-- A successful writing pass creates one file per track, reports no
error, and gives each file the synthesized header followed by the bytes
of the track chunk copied from its recorded position. -/
theorem writeTracksLoop_spec :
    ∀ (tracks : List TrackInfo) (hdr : List Nat) (base dir : String)
      (fuel : Nat) (s : ByteStream) (fsPaths : List String)
      (files : List OutFile) (e : Option SplitError),
      s.fail = false →
      (∀ t ∈ tracks, t.position + (8 + t.size) ≤ s.data.length) →
      writeTracksLoop hdr base dir fuel s fsPaths tracks = some (files, e) →
      e = none ∧
      files.map OutFile.content =
        tracks.map fun t =>
          hdr ++ (s.data.drop t.position).take (8 + t.size) := by
  intro tracks
  induction tracks with
  | nil =>
    intro hdr base dir fuel s fsPaths files e _ _ h
    rw [writeTracksLoop] at h
    simp only [Option.some.injEq, Prod.mk.injEq] at h
    obtain ⟨h1, h2⟩ := h
    subst h1; subst h2
    simp
  | cons t rest ih =>
    intro hdr base dir fuel s fsPaths files e hfail hbound h
    obtain ⟨d, p, f⟩ := s
    rw [writeTracksLoop] at h
    split at h
    · exact absurd h (by simp)
    · rename_i of1 hcl
      have hseek : ((⟨d, p, f⟩ : ByteStream).clearErr).seekAbs t.position =
          ⟨d, t.position, false⟩ := by
        simp [ByteStream.clearErr, ByteStream.seekAbs]
      rw [hseek] at h
      rw [if_neg (by simp)] at h
      have hcs : copyStream ⟨d, t.position, false⟩ hdr (8 + t.size) =
          (⟨d, t.position + (8 + t.size), false⟩,
            hdr ++ (d.drop t.position).take (8 + t.size)) :=
        copyStream_spec ⟨d, t.position, false⟩ hdr (8 + t.size)
          rfl (by simpa using hbound t (List.mem_cons_self ..))
      rw [hcs] at h
      split at h
      rename_i s2 content heq
      simp only [Prod.mk.injEq] at heq
      obtain ⟨hs2, hcontent⟩ := heq
      subst hs2; subst hcontent
      split at h
      · exact absurd h (by simp)
      · rename_i outs e2 hrec
        simp only [Option.some.injEq, Prod.mk.injEq] at h
        obtain ⟨h1, h2⟩ := h
        subst h1; subst h2
        obtain ⟨he, hmap⟩ := ih hdr base dir fuel
          ⟨d, t.position + (8 + t.size), false⟩ _ outs _ rfl
          (by intro u hu; simpa using hbound u (List.mem_cons_of_mem _ hu)) hrec
        exact ⟨he, by simp only [List.map_cons, hmap]⟩

/-- Consecutive chunk positions keep every chunk inside the declared
total span. -/
theorem chainPos_bound :
    ∀ (tracks : List TrackInfo) (p : Nat), chainPos p tracks →
      ∀ t ∈ tracks, t.position + (8 + t.size) ≤ p + sizesSum tracks := by
  intro tracks
  induction tracks with
  | nil => intro p _ t ht; simp at ht
  | cons a rest ih =>
    intro p hc t ht
    obtain ⟨hpos, hrest⟩ := hc
    rcases List.mem_cons.mp ht with rfl | ht2
    · simp [sizesSum, hpos]
    · have := ih (p + 8 + a.size) hrest t ht2
      simp [sizesSum] at this ⊢
      omega

/-- Concatenating consecutive chunks reproduces the contiguous byte range
they cover. -/
theorem chainPos_flatten :
    ∀ (tracks : List TrackInfo) (p : Nat) (data : List Nat),
      chainPos p tracks →
      (tracks.map fun t => (data.drop t.position).take (8 + t.size)).flatten =
        (data.drop p).take (sizesSum tracks) := by
  intro tracks
  induction tracks with
  | nil => intro p data _; simp [sizesSum]
  | cons a rest ih =>
    intro p data hc
    obtain ⟨hpos, hrest⟩ := hc
    simp only [List.map_cons, List.flatten_cons]
    rw [ih (p + 8 + a.size) data hrest, hpos]
    rw [show sizesSum (a :: rest) = (8 + a.size) + sizesSum rest from by
      simp [sizesSum]]
    conv_rhs => rw [List.take_add]
    congr 1
    rw [List.drop_drop, show p + (8 + a.size) = p + 8 + a.size from by omega]

/-- Claim C1: on a run that succeeds and whose discovered chunks all lie
within the input, splitting produces one output file per track, each
file's content is the synthesized 14-byte header followed by the track's
8-byte chunk header and declared payload copied byte for byte from its
recorded start position, and concatenating the files' track chunks in
original order reproduces the input's track chunk region exactly. -/
theorem splitMIDIFile_roundTrip (allocOk : Bool) (fuel : Nat)
    (fsPaths : List String) (baseName outputDir : String) (data : List Nat)
    (r : SplitResult)
    (hrun : splitMIDIFile allocOk fuel fsPaths baseName outputDir data = some r)
    (hok : r.err = none)
    (hfit : 14 + sizesSum r.tracks ≤ data.length) :
    r.files.length = r.tracks.length ∧
    r.files.map OutFile.content =
      r.tracks.map (fun t =>
        outputHeaderFor data ++ (data.drop t.position).take (8 + t.size)) ∧
    (r.files.map fun f => f.content.drop 14).flatten =
      (data.drop 14).take (sizesSum r.tracks) := by
  have h14 : 14 ≤ data.length := by omega
  have hread : (⟨data, 0, false⟩ : ByteStream).read 14 =
      (data.take 14, ⟨data, 14, false⟩) := by
    simp [ByteStream.read, Nat.min_eq_left h14]
  simp only [splitMIDIFile, hread] at hrun
  split at hrun
  · simp only [Option.some.injEq] at hrun; subst hrun; simp at hok
  split at hrun
  · simp only [Option.some.injEq] at hrun; subst hrun; simp at hok
  split at hrun
  · simp only [Option.some.injEq] at hrun; subst hrun; simp at hok
  split at hrun
  · simp only [Option.some.injEq] at hrun; subst hrun; simp at hok
  split at hrun
  · rename_i e1 hrtl
    simp only [Option.some.injEq] at hrun; subst hrun; simp at hok
  · rename_i tracks s2 hrtl
    split at hrun
    · exact absurd hrun (by simp)
    · rename_i files e2 hwtl
      simp only [Option.some.injEq] at hrun
      subst hrun
      simp only at hok hfit ⊢
      subst hok
      obtain ⟨hlen, hdata, hfail2, hpos2, hchain⟩ :=
        readTracksLoop_spec _ allocOk ⟨data, 14, false⟩ 0 tracks s2 rfl hrtl
      simp only at hdata hchain hpos2
      have hbound : ∀ t ∈ tracks, t.position + (8 + t.size) ≤ s2.data.length := by
        intro t ht
        have hb := chainPos_bound tracks 14 hchain t ht
        rw [hdata]
        omega
      obtain ⟨he2, hmap⟩ := writeTracksLoop_spec tracks _ baseName outputDir
        fuel s2 fsPaths files _ hfail2 hbound hwtl
      rw [hdata] at hmap
      have hhdrlen : ([77, 84, 104, 100] ++ uint32ToBytes 6 ++ uint16ToBytes 1 ++
          uint16ToBytes 1 ++ List.drop 12 (List.take 14 data)).length = 14 := by
        simp [uint32ToBytes, uint16ToBytes, List.length_drop, List.length_take]
        omega
      refine ⟨?_, ?_, ?_⟩
      · have hlens := congrArg List.length hmap
        simpa using hlens
      · simpa only [outputHeaderFor] using hmap
      · rw [show (fun f : OutFile => f.content.drop 14) =
          (fun c : List Nat => List.drop 14 c) ∘ OutFile.content from rfl,
          ← List.map_map, hmap, List.map_map]
        refine Eq.trans ?_ (chainPos_flatten tracks 14 data hchain)
        congr 1
        apply List.map_congr_left
        intro t _
        exact List.drop_left' hhdrlen

/-- Witness for claim C1 at a concrete two-track input. -/
theorem splitMIDIFile_roundTrip_case :
    (([⟨"out/Song - Track 1.mid",
        [77, 84, 104, 100, 0, 0, 0, 6, 0, 1, 0, 1, 0, 96,
         77, 84, 114, 107, 0, 0, 0, 1, 7]⟩,
      ⟨"out/Song - Track 2.mid",
        [77, 84, 104, 100, 0, 0, 0, 6, 0, 1, 0, 1, 0, 96,
         77, 84, 114, 107, 0, 0, 0, 2, 8, 9]⟩] : List OutFile).map
        fun f => f.content.drop 14).flatten =
      (([77, 84, 104, 100, 0, 0, 0, 6, 0, 1, 0, 2, 0, 96,
         77, 84, 114, 107, 0, 0, 0, 1, 7,
         77, 84, 114, 107, 0, 0, 0, 2, 8, 9] : List Nat).drop 14).take
        (sizesSum [⟨1, "Track 1", 1, 14⟩, ⟨2, "Track 2", 2, 23⟩]) :=
  (splitMIDIFile_roundTrip true 0 [] "Song" "out"
    [77, 84, 104, 100, 0, 0, 0, 6, 0, 1, 0, 2, 0, 96,
     77, 84, 114, 107, 0, 0, 0, 1, 7,
     77, 84, 114, 107, 0, 0, 0, 2, 8, 9]
    ⟨none, [⟨1, "Track 1", 1, 14⟩, ⟨2, "Track 2", 2, 23⟩],
      [⟨"out/Song - Track 1.mid",
        [77, 84, 104, 100, 0, 0, 0, 6, 0, 1, 0, 1, 0, 96,
         77, 84, 114, 107, 0, 0, 0, 1, 7]⟩,
       ⟨"out/Song - Track 2.mid",
        [77, 84, 104, 100, 0, 0, 0, 6, 0, 1, 0, 1, 0, 96,
         77, 84, 114, 107, 0, 0, 0, 2, 8, 9]⟩]⟩
    (by decide) (by decide) (by decide)).2.2

end MIDISplitter
